import Mathlib

/-!
Verification development for a small untyped lambda-calculus evaluator
(file `src/main.rs` of the repository).  The Rust source is shallowly
embedded: the `Term` enum becomes an inductive type, every pure Rust
function becomes a Lean function of the same name, the potentially
divergent reduction loop becomes a fuel-indexed function together with the
relation "terminates with result r", and the mutable `HashMap` environment
becomes an association list threaded explicitly.  A Rust `unreachable!`
panic (which can only happen on `Assignment` nodes inside reduction-side
functions) is modelled by a documented junk value for total functions and
by `none` for the fuel-indexed ones; theorems that depend on panic-free
execution carry a well-formedness hypothesis `wf`.
-/

/-- The AST of the calculus: mirror of Rust `enum Term`
(`Variable(String)`, `Assignment(String, Box<Term>)`,
`Abstraction(String, Box<Term>)`, `Application(Box<Term>, Box<Term>)`). -/
inductive Term : Type where
  | Variable : String → Term
  | Assignment : String → Term → Term
  | Abstraction : String → Term → Term
  | Application : Term → Term → Term
deriving DecidableEq

/-- Node count of a term; used as the termination measure of `substitute`. -/
def Term.size : Term → Nat
  | .Variable _ => 1
  | .Assignment _ t => 1 + t.size
  | .Abstraction _ b => 1 + b.size
  | .Application f a => 1 + f.size + a.size

/-- Mirror of Rust `free_vars`: the set of free variable names.
The Rust function panics (`unreachable!`) on an `Assignment` node; that
case is modelled as the empty set. -/
def free_vars : Term → Finset String
  | .Variable s => {s}
  | .Abstraction s body => free_vars body \ {s}
  | .Application e1 e2 => free_vars e1 ∪ free_vars e2
  | .Assignment _ _ => ∅

/-- The apostrophe character appended by `fresh_var`. -/
def primeChar : Char := Char.ofNat 39

/-- Mirror of Rust `fresh_var`: `format!("{}'", s)`. -/
def fresh_var (s : String) : String := s.push primeChar

/-- Whether a name ends in the apostrophe appended by `fresh_var`.
Every name generated by `fresh_var` satisfies this, so a name that does
not can never collide with a generated one. -/
def endsPrime (s : String) : Bool := s.data.getLast? = some primeChar

/-- Mirror of Rust `rename_var`: blind renaming of every occurrence of
`old_var` (as variable reference or binder) to `new_var`.  The Rust
function panics on an `Assignment` node; that case is modelled as the
identity. -/
def rename_var (term : Term) (old_var new_var : String) : Term :=
  match term with
  | .Variable s => if s = old_var then .Variable new_var else .Variable s
  | .Abstraction s body =>
      .Abstraction (if s = old_var then new_var else s)
        (rename_var body old_var new_var)
  | .Application e1 e2 =>
      .Application (rename_var e1 old_var new_var) (rename_var e2 old_var new_var)
  | .Assignment n v => .Assignment n v

/-- Well-formed reducible terms: terms containing no `Assignment` node.
On such terms none of the Rust functions `free_vars`, `rename_var`,
`substitute`, `beta_reduce` can reach their `unreachable!` arm. -/
def wf : Term → Bool
  | .Variable _ => true
  | .Assignment _ _ => false
  | .Abstraction _ b => wf b
  | .Application f a => wf f && wf a

/-- The set of abstraction binder names occurring in a term. -/
def binders : Term → Finset String
  | .Variable _ => ∅
  | .Assignment _ v => binders v
  | .Abstraction s b => insert s (binders b)
  | .Application f a => binders f ∪ binders a

/-- Mirror of Rust `substitute`: capture-"avoiding" substitution with the
ad hoc freshness scheme `fresh_var` (append an apostrophe).  Match arms
appear in source order; the Rust `unreachable!` arm (`Assignment`) is
modelled as the identity. -/
def substitute (term : Term) (var : String) (value : Term) : Term :=
  match term with
  | .Variable v => if v = var then value else .Variable v
  | .Application e1 e2 =>
      .Application (substitute e1 var value) (substitute e2 var value)
  | .Abstraction s body =>
      if s = var then .Abstraction s body
      else if s ∈ free_vars value then
        .Abstraction (fresh_var s)
          (substitute (rename_var body s (fresh_var s)) var value)
      else .Abstraction s (substitute body var value)
  | .Assignment n v => .Assignment n v
termination_by term.size
decreasing_by
  all_goals try (simp only [Term.size]; omega)
  have hre : ∀ (b : Term) (o nn : String), (rename_var b o nn).size = b.size := by
    intro b o nn
    induction b with
    | Variable s => simp [rename_var]; split <;> simp [Term.size]
    | Assignment _s _t _ih => simp [rename_var]
    | Abstraction _s b' ih => simp [rename_var, Term.size, ih]
    | Application f a ihf iha => simp [rename_var, Term.size, ihf, iha]
  rw [hre]
  simp only [Term.size]
  omega

/-- Fuel-indexed mirror of Rust `beta_reduce` (one call of the recursive
function; the Rust recursion is unbounded, so `none` stands for "more than
`n` nested calls, i.e. the Rust call has not returned yet, or panicked on
an `Assignment` node").  Source shape: a variable is returned unchanged,
an abstraction reduces its body, an application whose head is
syntactically an abstraction substitutes and keeps reducing the result,
any other application reduces both sides and rewraps. -/
def betaReduceF (n : Nat) (t : Term) : Option Term :=
  if _hn : n = 0 then none
  else
    match t with
    | .Variable v => some (.Variable v)
    | .Abstraction var body => (betaReduceF (n - 1) body).map (.Abstraction var)
    | .Application e1 e2 =>
        match e1 with
        | .Abstraction var body => betaReduceF (n - 1) (substitute body var e2)
        | _ =>
            (betaReduceF (n - 1) e1).bind fun r1 =>
              (betaReduceF (n - 1) e2).map fun r2 => .Application r1 r2
    | .Assignment _ _ => none
termination_by n
decreasing_by
  all_goals omega

/-- `beta_reduce t` terminates and returns `r`. -/
def BetaReduces (t r : Term) : Prop := ∃ n, betaReduceF n t = some r

/-- Fuel-indexed mirror of the `reduce_to_normal_form` loop inside Rust
`eval`: repeatedly apply `beta_reduce` until the result is structurally
equal to the input. -/
def normF (n : Nat) (t : Term) : Option Term :=
  if h : n = 0 then none
  else
    (betaReduceF n t).bind fun t' =>
      if t' = t then some t else normF (n - 1) t'
termination_by n
decreasing_by
  all_goals omega

/-- `reduce_to_normal_form t` terminates and returns `r`. -/
def Normalizes (t r : Term) : Prop := ∃ n, normF n t = some r

/-- The environment `HashMap<String, Term>` of the Rust program, modelled
as an association list with unique keys (insertion order is irrelevant to
every observation the program makes, which is single-key lookup). -/
def Env : Type := List (String × Term)

instance : DecidableEq Env := by
  unfold Env
  infer_instance

/-- Mirror of `HashMap::get` (plus `cloned().unwrap_or` handled at the
call site): first matching binding, if any. -/
def envLookup (env : Env) (k : String) : Option Term :=
  match env with
  | [] => none
  | (k', v) :: rest => if k' = k then some v else envLookup rest k

/-- Remove every binding of a key (helper for `envInsert`). -/
def envRemove (k : String) : Env → Env
  | [] => []
  | (k', v) :: rest =>
      if k' = k then envRemove k rest else (k', v) :: envRemove k rest

/-- Mirror of `HashMap::insert`: bind `k` to `v`, overwriting any prior
binding for `k` (keys stay unique). -/
def envInsert (k : String) (v : Term) (env : Env) : Env :=
  (k, v) :: envRemove k env

/-- Mirror of Rust `inline_vars`: replace every `Variable` node whose name
is bound in the environment by its stored value.  Note that the recursion
descends into abstraction bodies without removing the parameter from the
environment. -/
def inline_vars (term : Term) (env : Env) : Term :=
  match term with
  | .Variable v =>
      match envLookup env v with
      | some w => w
      | none => .Variable v
  | .Assignment name val => .Assignment name (inline_vars val env)
  | .Abstraction param body => .Abstraction param (inline_vars body env)
  | .Application f x => .Application (inline_vars f env) (inline_vars x env)

/-- Fuel-indexed mirror of Rust `eval`: inline the term against the
environment; if the inlined term is an assignment, normalize its value,
store it under the name and return it, otherwise normalize the inlined
term and return it with the environment untouched. -/
def evalF (n : Nat) (t : Term) (env : Env) : Option (Term × Env) :=
  match inline_vars t env with
  | .Assignment name val =>
      (normF n val).map fun r => (r, envInsert name r env)
  | t' => (normF n t').map fun r => (r, env)

/-- Fuel-indexed mirror of the evaluation part of Rust `run`: evaluate
each term of the batch in order against the threaded environment; the
batch result is the result of the last term.  (`terms.next().expect(..)`
panics on an empty batch, modelled as `none`.) -/
def runTermsF (n : Nat) (ts : List Term) (env : Env) : Option (Term × Env) :=
  match ts with
  | [] => none
  | [t] => evalF n t env
  | t :: rest =>
      (evalF n t env).bind fun p => runTermsF n rest p.2

/-- Threading of the environment through the evaluation of a list of
terms, discarding results (the fold state of Rust `run` keeps only the
last result). -/
def threadEnvF (n : Nat) (ts : List Term) (env : Env) : Option Env :=
  match ts with
  | [] => some env
  | t :: rest => (evalF n t env).bind fun p => threadEnvF n rest p.2

/-- Test for `matches!(_, Term::Variable(_))`. -/
def isVariable : Term → Bool
  | .Variable _ => true
  | _ => false

/-- Test for `matches!(_, Term::Application(_, _))`. -/
def isApplication : Term → Bool
  | .Application _ _ => true
  | _ => false

/-- Test for `matches!(_, Term::Assignment(_, _))`. -/
def isAssignment : Term → Bool
  | .Assignment _ _ => true
  | _ => false

/-- Test for `matches!(_, Term::Abstraction(_, _))` (the `if let` guard of
the application arm of `beta_reduce`). -/
def isAbstraction : Term → Bool
  | .Abstraction _ _ => true
  | _ => false

/-- ANSI escape `\x1b[90m` (Rust constant `DARK_GRAY`). -/
def DARK_GRAY : String := "\x1b[90m"

/-- ANSI escape `\x1b[33m` (Rust constant `YELLOW`). -/
def YELLOW : String := "\x1b[33m"

/-- ANSI escape `\x1b[0m` (Rust constant `RESET`). -/
def RESET : String := "\x1b[0m"

/-- The dark-gray parenthesization wrapper
`format!("{DARK_GRAY}({RESET}{}{DARK_GRAY}){RESET}", s)` used by
`print_term`. -/
def gparen (s : String) : String :=
  DARK_GRAY ++ "(" ++ RESET ++ s ++ DARK_GRAY ++ ")" ++ RESET

/-- Mirror of the inner Rust function `print_term` of `pretty_print`,
colored output included.  `top` is true only at the outermost call. -/
def print_term (term : Term) (top : Bool) : String :=
  match term with
  | .Variable v => v
  | .Assignment name val =>
      name ++ DARK_GRAY ++ " = " ++ RESET ++ print_term val false
        ++ DARK_GRAY ++ ";" ++ RESET
  | .Abstraction param body =>
      let bodyS :=
        if isApplication body then gparen (print_term body false)
        else print_term body false
      YELLOW ++ "λ" ++ RESET ++ param ++ DARK_GRAY ++ "." ++ RESET ++ bodyS
  | .Application f x =>
      let lhs :=
        if isVariable f then print_term f false else gparen (print_term f false)
      let rhs :=
        if isVariable x then print_term x false else gparen (print_term x false)
      if top then gparen (lhs ++ " " ++ rhs) else lhs ++ " " ++ rhs

/-- Mirror of Rust `pretty_print`: `print_term(term, true)`. -/
def pretty_print (term : Term) : String := print_term term true

/-- Rendering rules as the specification states them (formatting colors,
which the specification scopes out, omitted): a variable is its bare name;
an assignment is `name = value;`; an abstraction is `λparam.body` with the
body parenthesized exactly when it is an application; an application is
`lhs rhs` with each side parenthesized unless it is a bare variable, and
one extra pair of parentheses around the whole term only at top level. -/
def specRender (term : Term) (top : Bool) : String :=
  match term with
  | .Variable v => v
  | .Assignment name val => name ++ " = " ++ specRender val false ++ ";"
  | .Abstraction param body =>
      "λ" ++ param ++ "." ++
        (if isApplication body then "(" ++ specRender body false ++ ")"
         else specRender body false)
  | .Application f x =>
      let lhs :=
        if isVariable f then specRender f false
        else "(" ++ specRender f false ++ ")"
      let rhs :=
        if isVariable x then specRender x false
        else "(" ++ specRender x false ++ ")"
      if top then "(" ++ lhs ++ " " ++ rhs ++ ")" else lhs ++ " " ++ rhs

/-- The ASCII escape character that starts every ANSI color code. -/
def escChar : Char := Char.ofNat 27

/-- Drop the remainder of an ANSI escape sequence: everything up to and
including the terminating `m`. -/
def skipCode (l : List Char) : List Char :=
  match l with
  | [] => []
  | c :: rest => if c = Char.ofNat 109 then rest else skipCode rest

/-- Strip ANSI color escape sequences from a character list. -/
def stripEscL (l : List Char) : List Char :=
  match l with
  | [] => []
  | c :: rest =>
      if c = escChar then stripEscL (skipCode rest)
      else c :: stripEscL rest
termination_by l.length
decreasing_by
  · have : (skipCode rest).length ≤ rest.length := by
      induction rest with
      | nil => simp [skipCode]
      | cons d ds ih =>
          rw [skipCode]
          by_cases hd : d = Char.ofNat 109
          · rw [if_pos hd]; simp
          · rw [if_neg hd]; simp; omega
    simp; omega
  · simp

/-- Strip ANSI color escape sequences from a string. -/
def stripEsc (s : String) : String := String.mk (stripEscL s.data)

/-- Every name occurring in the term (variable, binder or assignment
name) is free of the escape character; true of everything the parser's
identifier grammar can produce. -/
def namesOk : Term → Bool
  | .Variable v => ¬ escChar ∈ v.data
  | .Assignment name val => (¬ escChar ∈ name.data) && namesOk val
  | .Abstraction param body => (¬ escChar ∈ param.data) && namesOk body
  | .Application f x => namesOk f && namesOk x

/-- Renaming does not change the node count. -/
theorem rename_var_size (term : Term) (o n : String) :
    (rename_var term o n).size = term.size := by
  induction term with
  | Variable s => simp [rename_var, Term.size]; split <;> simp [Term.size]
  | Assignment s t ih => simp [rename_var]
  | Abstraction s b ih => simp [rename_var, Term.size, ih]
  | Application f a ihf iha => simp [rename_var, Term.size, ihf, iha]

/-- Looking up a freshly inserted key yields the inserted value. -/
theorem envLookup_insert_self (k : String) (v : Term) (env : Env) :
    envLookup (envInsert k v env) k = some v := by
  simp [envInsert, envLookup]

/-- More fuel can only preserve a successful `beta_reduce` run. -/
theorem betaReduceF_mono {n m : Nat} {t r : Term}
    (h : betaReduceF n t = some r) (hnm : n ≤ m) : betaReduceF m t = some r := by
  induction n using Nat.strong_induction_on generalizing t r m with
  | _ n ih =>
    rcases Nat.eq_zero_or_pos n with hn | hn
    · subst hn; rw [betaReduceF.eq_def] at h; simp at h
    · have hn0 : ¬ n = 0 := by omega
      have hm0 : ¬ m = 0 := by omega
      rw [betaReduceF.eq_def, dif_neg hn0] at h
      rw [betaReduceF.eq_def, dif_neg hm0]
      cases t with
      | Variable v => exact h
      | Assignment name v => simp at h
      | Abstraction var body =>
          simp only [Option.map_eq_some'] at h ⊢
          obtain ⟨b', hb', rfl⟩ := h
          exact ⟨b', ih (n - 1) (by omega) hb' (by omega), rfl⟩
      | Application e1 e2 =>
          cases e1 with
          | Abstraction var body =>
              exact ih (n - 1) (by omega) h (by omega)
          | Variable v =>
              simp only [Option.bind_eq_some, Option.map_eq_some'] at h ⊢
              obtain ⟨r1, h1, r2, h2, rfl⟩ := h
              exact ⟨r1, ih (n - 1) (by omega) h1 (by omega),
                r2, ih (n - 1) (by omega) h2 (by omega), rfl⟩
          | Assignment name v =>
              simp only [Option.bind_eq_some, Option.map_eq_some'] at h ⊢
              obtain ⟨r1, h1, r2, h2, rfl⟩ := h
              exact ⟨r1, ih (n - 1) (by omega) h1 (by omega),
                r2, ih (n - 1) (by omega) h2 (by omega), rfl⟩
          | Application f a =>
              simp only [Option.bind_eq_some, Option.map_eq_some'] at h ⊢
              obtain ⟨r1, h1, r2, h2, rfl⟩ := h
              exact ⟨r1, ih (n - 1) (by omega) h1 (by omega),
                r2, ih (n - 1) (by omega) h2 (by omega), rfl⟩

/-- `beta_reduce` is a partial function: the result is unique. -/
theorem BetaReduces_det {t r1 r2 : Term}
    (h1 : BetaReduces t r1) (h2 : BetaReduces t r2) : r1 = r2 := by
  obtain ⟨n1, h1⟩ := h1
  obtain ⟨n2, h2⟩ := h2
  have e1 := betaReduceF_mono h1 (Nat.le_max_left n1 n2)
  have e2 := betaReduceF_mono h2 (Nat.le_max_right n1 n2)
  rw [e1] at e2
  exact Option.some.inj e2

/-- More fuel can only preserve a successful normalization run. -/
theorem normF_mono {n m : Nat} {t r : Term}
    (h : normF n t = some r) (hnm : n ≤ m) : normF m t = some r := by
  induction n using Nat.strong_induction_on generalizing t m with
  | _ n ih =>
    rcases Nat.eq_zero_or_pos n with hn | hn
    · subst hn; rw [normF.eq_def] at h; simp at h
    · have hn0 : ¬ n = 0 := by omega
      have hm0 : ¬ m = 0 := by omega
      rw [normF.eq_def, dif_neg hn0] at h
      rw [normF.eq_def, dif_neg hm0]
      cases hb : betaReduceF n t with
      | none => rw [hb] at h; simp at h
      | some t' =>
          rw [hb, Option.some_bind] at h
          rw [betaReduceF_mono hb hnm, Option.some_bind]
          by_cases ht : t' = t
          · rw [if_pos ht] at h; rw [if_pos ht]; exact h
          · rw [if_neg ht] at h; rw [if_neg ht]
            exact ih (n - 1) (by omega) h (by omega)

/-- Normalization is a partial function: the result is unique. -/
theorem Normalizes_det {t r1 r2 : Term}
    (h1 : Normalizes t r1) (h2 : Normalizes t r2) : r1 = r2 := by
  obtain ⟨n1, h1⟩ := h1
  obtain ⟨n2, h2⟩ := h2
  have e1 := normF_mono h1 (Nat.le_max_left n1 n2)
  have e2 := normF_mono h2 (Nat.le_max_right n1 n2)
  rw [e1] at e2
  exact Option.some.inj e2

/-- A successful normalization run ends in a `beta_reduce` fixed point. -/
theorem normF_fixpoint {n : Nat} {t r : Term}
    (h : normF n t = some r) : ∃ k, betaReduceF k r = some r := by
  induction n using Nat.strong_induction_on generalizing t with
  | _ n ih =>
    rcases Nat.eq_zero_or_pos n with hn | hn
    · subst hn; rw [normF.eq_def] at h; simp at h
    · have hn0 : ¬ n = 0 := by omega
      rw [normF.eq_def, dif_neg hn0] at h
      cases hb : betaReduceF n t with
      | none => rw [hb] at h; simp at h
      | some t' =>
          rw [hb, Option.some_bind] at h
          by_cases ht : t' = t
          · rw [if_pos ht] at h
            have hr : r = t := (Option.some.inj h).symm
            subst hr
            exact ⟨n, by rw [hb, ht]⟩
          · rw [if_neg ht] at h
            exact ih (n - 1) (by omega) h

/-- Stripping jumps over the `DARK_GRAY` escape code. -/
theorem strip_code_dg (b : List Char) :
    stripEscL (DARK_GRAY.data ++ b) = stripEscL b := by
  rw [show DARK_GRAY.data = [escChar, Char.ofNat 91, Char.ofNat 57,
    Char.ofNat 48, Char.ofNat 109] from by decide]
  simp [stripEscL, skipCode, escChar]

/-- Stripping jumps over the `YELLOW` escape code. -/
theorem strip_code_yellow (b : List Char) :
    stripEscL (YELLOW.data ++ b) = stripEscL b := by
  rw [show YELLOW.data = [escChar, Char.ofNat 91, Char.ofNat 51,
    Char.ofNat 51, Char.ofNat 109] from by decide]
  simp [stripEscL, skipCode, escChar]

/-- Stripping jumps over the `RESET` escape code. -/
theorem strip_code_reset (b : List Char) :
    stripEscL (RESET.data ++ b) = stripEscL b := by
  rw [show RESET.data = [escChar, Char.ofNat 91, Char.ofNat 48,
    Char.ofNat 109] from by decide]
  simp [stripEscL, skipCode, escChar]

/-- Stripping leaves an escape-free prefix untouched. -/
theorem strip_plain {a : List Char} (h : ¬ escChar ∈ a) (b : List Char) :
    stripEscL (a ++ b) = a ++ stripEscL b := by
  induction a with
  | nil => simp
  | cons c cs ih =>
      simp only [List.mem_cons, not_or] at h
      rw [List.cons_append, stripEscL, if_neg (fun hc => h.1 hc.symm)]
      rw [ih h.2, List.cons_append]

/-- Stripping passes over a single non-escape character. -/
theorem strip_cons (c : Char) (l : List Char) (hc : ¬ c = escChar) :
    stripEscL (c :: l) = c :: stripEscL l := by
  rw [stripEscL, if_neg hc]

/-- Color-stripped `print_term` output coincides with the specification's
colorless rendering rules, for terms whose names contain no escape
character (strengthened with an arbitrary continuation `b` so that the
statement composes under concatenation). -/
theorem strip_print_aux (t : Term) (h : namesOk t = true) :
    ∀ (top : Bool) (b : List Char),
      stripEscL ((print_term t top).data ++ b)
        = (specRender t top).data ++ stripEscL b := by
  induction t with
  | Variable v =>
      intro top b
      simp only [namesOk, decide_eq_true_eq] at h
      simpa only [print_term, specRender] using strip_plain h b
  | Assignment name val ih =>
      intro top b
      simp only [namesOk, Bool.and_eq_true, decide_eq_true_eq] at h
      simp [print_term, specRender, String.data_append, List.append_assoc,
        strip_cons, escChar, strip_code_dg, strip_code_reset,
        strip_plain h.1, ih h.2]
  | Abstraction param body ih =>
      intro top b
      simp only [namesOk, Bool.and_eq_true, decide_eq_true_eq] at h
      by_cases hb : isApplication body = true <;>
        simp [print_term, specRender, gparen, hb, String.data_append,
          List.append_assoc, strip_cons, escChar, strip_code_dg,
          strip_code_yellow, strip_code_reset, strip_plain h.1, ih h.2]
  | Application f x ihf ihx =>
      intro top b
      simp only [namesOk, Bool.and_eq_true] at h
      by_cases hf : isVariable f = true <;> by_cases hx : isVariable x = true <;>
        cases top <;>
          simp [print_term, specRender, gparen, hf, hx, String.data_append,
            List.append_assoc, strip_cons, escChar, strip_code_dg,
            strip_code_yellow, strip_code_reset, ihf h.1, ihx h.2]

/-- Names produced by `fresh_var` end in an apostrophe. -/
theorem fresh_var_endsPrime (s : String) : endsPrime (fresh_var s) = true := by
  simp [endsPrime, fresh_var, String.push]

/-- A name that does not end in an apostrophe is never a `fresh_var`
output. -/
theorem ne_fresh_of_not_endsPrime {w : String} (h : endsPrime w = false)
    (s : String) : w ≠ fresh_var s := by
  intro he
  rw [he, fresh_var_endsPrime] at h
  simp at h

/-- Renaming preserves well-formedness. -/
theorem wf_rename (b : Term) (s s' : String) :
    wf (rename_var b s s') = wf b := by
  induction b with
  | Variable v => simp [rename_var, wf]; split <;> simp [wf]
  | Assignment n v ih => simp [rename_var]
  | Abstraction p b' ih => simp [rename_var, wf, ih]
  | Application f a ihf iha => simp [rename_var, wf, ihf, iha]

/-- A free variable different from both the old and the new name stays
free under blind renaming. -/
theorem mem_free_vars_rename {x s s' : String} (hxs : x ≠ s) (hxs' : x ≠ s')
    {b : Term} (hb : x ∈ free_vars b) : x ∈ free_vars (rename_var b s s') := by
  induction b with
  | Variable v =>
      simp [free_vars] at hb
      subst hb
      rw [rename_var, if_neg hxs]
      simp [free_vars]
  | Assignment n v ih => simp [free_vars] at hb
  | Abstraction p b' ih =>
      simp only [free_vars, Finset.mem_sdiff, Finset.mem_singleton] at hb
      rw [rename_var]
      simp only [free_vars, Finset.mem_sdiff, Finset.mem_singleton]
      refine ⟨ih hb.1, ?_⟩
      by_cases hps : p = s
      · rw [if_pos hps]; exact hxs'
      · rw [if_neg hps]; exact hb.2
  | Application f a ihf iha =>
      simp only [free_vars, Finset.mem_union] at hb ⊢
      rcases hb with hb | hb
      · exact Or.inl (ihf hb)
      · exact Or.inr (iha hb)

/-- Size-bounded induction core for the conditional capture-avoidance
property: when neither `x` nor any free variable of `v` ends in an
apostrophe, every free variable of `v` stays free in
`substitute t x v` whenever the substitution actually fires
(`x ∈ free_vars t`). -/
theorem subst_free_sub_aux :
    ∀ (n : Nat) (t : Term), t.size ≤ n → ∀ (x : String) (v : Term),
      wf t = true → wf v = true →
      (∀ w ∈ free_vars v, endsPrime w = false) → endsPrime x = false →
      x ∈ free_vars t → free_vars v ⊆ free_vars (substitute t x v) := by
  intro n
  induction n with
  | zero =>
      intro t ht
      cases t <;> simp [Term.size] at ht
  | succ n ih =>
    intro t ht x v hwt hwv hv hx hmem
    cases t with
    | Variable s =>
        simp only [free_vars, Finset.mem_singleton] at hmem
        subst hmem
        rw [substitute, if_pos rfl]
    | Assignment name val => simp [free_vars] at hmem
    | Application e1 e2 =>
        simp only [wf, Bool.and_eq_true] at hwt
        have h1 : e1.size ≤ n := by simp [Term.size] at ht; omega
        have h2 : e2.size ≤ n := by simp [Term.size] at ht; omega
        rw [substitute]
        simp only [free_vars, Finset.mem_union] at hmem
        intro w hw
        simp only [free_vars, Finset.mem_union]
        rcases hmem with hm | hm
        · exact Or.inl (ih e1 h1 x v hwt.1 hwv hv hx hm hw)
        · exact Or.inr (ih e2 h2 x v hwt.2 hwv hv hx hm hw)
    | Abstraction s body =>
        simp only [wf] at hwt
        simp only [free_vars, Finset.mem_sdiff, Finset.mem_singleton] at hmem
        have hbody : body.size ≤ n := by simp [Term.size] at ht; omega
        have hsx : ¬ s = x := fun he => hmem.2 he.symm
        by_cases hsv : s ∈ free_vars v
        · rw [substitute, if_neg hsx, if_pos hsv]
          intro w hw
          have hws' : w ≠ fresh_var s := ne_fresh_of_not_endsPrime (hv w hw) s
          have hxs' : x ≠ fresh_var s := ne_fresh_of_not_endsPrime hx s
          have hxmem : x ∈ free_vars (rename_var body s (fresh_var s)) :=
            mem_free_vars_rename (fun he => hsx he.symm) hxs' hmem.1
          have hsz : (rename_var body s (fresh_var s)).size ≤ n := by
            rw [rename_var_size]; exact hbody
          have hwren : wf (rename_var body s (fresh_var s)) = true := by
            rw [wf_rename]; exact hwt
          have hsub := ih (rename_var body s (fresh_var s)) hsz x v hwren hwv hv hx hxmem
          simp only [free_vars, Finset.mem_sdiff, Finset.mem_singleton]
          exact ⟨hsub hw, hws'⟩
        · rw [substitute, if_neg hsx, if_neg hsv]
          intro w hw
          have hws : w ≠ s := fun he => hsv (he ▸ hw)
          simp only [free_vars, Finset.mem_sdiff, Finset.mem_singleton]
          exact ⟨ih body hbody x v hwt hwv hv hx hmem.1 hw, hws⟩

/-- C1: the claim's universal capture-avoidance statement is refuted on
the code: substituting `y := x x'` into `λx.y` picks the "fresh" name
`x' = fresh_var "x"`, which is itself free in the substituted value, so
the free occurrence of `x'` in the value is captured by the new binder
(it is free in the value but no longer free in the result). -/
theorem c1_counterexample :
    "y" ∈ free_vars (Term.Abstraction "x" (Term.Variable "y"))
    ∧ (fresh_var "x") ∈ free_vars
        (Term.Application (Term.Variable "x") (Term.Variable (fresh_var "x")))
    ∧ substitute (Term.Abstraction "x" (Term.Variable "y")) "y"
        (Term.Application (Term.Variable "x") (Term.Variable (fresh_var "x")))
      = Term.Abstraction (fresh_var "x")
          (Term.Application (Term.Variable "x") (Term.Variable (fresh_var "x")))
    ∧ (fresh_var "x") ∉ free_vars
        (substitute (Term.Abstraction "x" (Term.Variable "y")) "y"
          (Term.Application (Term.Variable "x") (Term.Variable (fresh_var "x")))) := by
  have h1 : ¬ ("x" = "y") := by decide
  have h2 : ¬ ("y" = "x") := by decide
  have h3 : ¬ ("x".push primeChar = "y") := by decide
  have h4 : ¬ ("x" = "x".push primeChar) := by decide
  have heq : substitute (Term.Abstraction "x" (Term.Variable "y")) "y"
      (Term.Application (Term.Variable "x") (Term.Variable (fresh_var "x")))
      = Term.Abstraction (fresh_var "x")
          (Term.Application (Term.Variable "x") (Term.Variable (fresh_var "x"))) := by
    simp [substitute, rename_var, free_vars, fresh_var, h1, h2, h3, h4]
  refine ⟨by decide, by decide, heq, ?_⟩
  rw [heq]
  decide

/-- C1 (amended): substitution is capture-avoiding under the freshness
precondition the implementation actually provides: if neither the
substituted variable `x` nor any free variable of the value `v` ends in
the apostrophe used by `fresh_var`, then (on panic-free terms) every free
variable of `v` is still free after `substitute t x v` fires
(`x ∈ free_vars t`), i.e. none of them is captured by a binder.
Moreover the specification's concrete example holds: substituting
`x := x'` into `λx'.x` renames the binder to `x''` and yields `λx''.x'`,
not `λx'.x'`. -/
theorem c1_substitution_capture_avoiding :
    (∀ (t : Term) (x : String) (v : Term),
        wf t = true → wf v = true →
        (∀ w ∈ free_vars v, endsPrime w = false) →
        endsPrime x = false →
        x ∈ free_vars t →
        free_vars v ⊆ free_vars (substitute t x v))
    ∧ substitute (Term.Abstraction (fresh_var "x") (Term.Variable "x")) "x"
        (Term.Variable (fresh_var "x"))
      = Term.Abstraction (fresh_var (fresh_var "x"))
          (Term.Variable (fresh_var "x")) := by
  constructor
  · intro t x v hwt hwv hv hx hmem
    exact subst_free_sub_aux t.size t (le_refl _) x v hwt hwv hv hx hmem
  · have h1 : ¬ ("x".push primeChar = "x") := by decide
    have h2 : ¬ ("x" = "x".push primeChar) := by decide
    simp [substitute, rename_var, free_vars, fresh_var, h1, h2]

/-- C1 witness: the conditional part of the amended theorem applied at a
concrete input that exercises the renaming branch
(`substitute (λz.x) x z = λz'.z`). -/
theorem c1_witness :
    (wf (Term.Abstraction "z" (Term.Variable "x")) = true)
    ∧ (wf (Term.Variable "z") = true)
    ∧ (∀ w ∈ free_vars (Term.Variable "z"), endsPrime w = false)
    ∧ (endsPrime "x" = false)
    ∧ ("x" ∈ free_vars (Term.Abstraction "z" (Term.Variable "x")))
    ∧ free_vars (Term.Variable "z")
        ⊆ free_vars (substitute (Term.Abstraction "z" (Term.Variable "x")) "x"
            (Term.Variable "z")) :=
  ⟨by decide, by decide, by decide, by decide, by decide,
    c1_substitution_capture_avoiding.1
      (Term.Abstraction "z" (Term.Variable "x")) "x" (Term.Variable "z")
      (by decide) (by decide) (by decide) (by decide) (by decide)⟩

/-- C2: the claim "substitute(t, x, v) == t whenever x ∉ freeVars(t)" is
refuted on the code: even though `y` is not free in `λx.x`, substituting
`y := x` renames the binder because `x` is free in the value, producing
`λx'.x'` instead of `λx.x`. -/
theorem c2_counterexample :
    "y" ∉ free_vars (Term.Abstraction "x" (Term.Variable "x"))
    ∧ substitute (Term.Abstraction "x" (Term.Variable "x")) "y" (Term.Variable "x")
        = Term.Abstraction (fresh_var "x") (Term.Variable (fresh_var "x"))
    ∧ substitute (Term.Abstraction "x" (Term.Variable "x")) "y" (Term.Variable "x")
        ≠ Term.Abstraction "x" (Term.Variable "x") := by
  have h1 : ¬ ("x" = "y") := by decide
  have h2 : ¬ ("x" = "x".push primeChar) := by decide
  have h3 : ¬ ("x".push primeChar = "y") := by decide
  have heq : substitute (Term.Abstraction "x" (Term.Variable "x")) "y"
      (Term.Variable "x")
      = Term.Abstraction (fresh_var "x") (Term.Variable (fresh_var "x")) := by
    simp [substitute, rename_var, free_vars, fresh_var, h1, h2, h3]
  refine ⟨by decide, heq, ?_⟩
  rw [heq]
  decide

/-- C2 (amended): the substitution fixed point holds under the extra
hypothesis the code requires: if `x` is not free in `t` and additionally
no abstraction binder of `t` is free in `v` (so the renaming arm never
fires), then `substitute t x v` returns `t` unchanged, with no renaming
of any binder. -/
theorem c2_substitute_fixed_point :
    ∀ (t : Term) (x : String) (v : Term),
      wf t = true →
      x ∉ free_vars t →
      (∀ b ∈ binders t, b ∉ free_vars v) →
      substitute t x v = t := by
  intro t
  induction t with
  | Variable s =>
      intro x v _hw hx _hb
      simp only [free_vars, Finset.mem_singleton] at hx
      rw [substitute, if_neg (fun he : s = x => hx he.symm)]
  | Assignment name val ih =>
      intro x v hw _hx _hb
      simp [wf] at hw
  | Abstraction s body ih =>
      intro x v hw hx hb
      simp only [wf] at hw
      by_cases hsx : s = x
      · rw [substitute, if_pos hsx]
      · have hsv : s ∉ free_vars v := hb s (by simp [binders])
        rw [substitute, if_neg hsx, if_neg hsv]
        have hxb : x ∉ free_vars body := by
          intro hm
          simp only [free_vars, Finset.mem_sdiff, Finset.mem_singleton] at hx
          exact hsx ((fun hxs => hxs.symm) (by_contra fun hne => hx ⟨hm, hne⟩))
        rw [ih x v hw hxb
          (fun b hbb => hb b (by simp only [binders, Finset.mem_insert]; exact Or.inr hbb))]
  | Application e1 e2 ih1 ih2 =>
      intro x v hw hx hb
      simp only [wf, Bool.and_eq_true] at hw
      simp only [free_vars, Finset.mem_union, not_or] at hx
      rw [substitute,
        ih1 x v hw.1 hx.1
          (fun b hbb => hb b (by simp only [binders, Finset.mem_union]; exact Or.inl hbb)),
        ih2 x v hw.2 hx.2
          (fun b hbb => hb b (by simp only [binders, Finset.mem_union]; exact Or.inr hbb))]

/-- C2 witness: the amended fixed-point theorem applied at a concrete
input (`substitute (λx.x) y z = λx.x`). -/
theorem c2_witness :
    (wf (Term.Abstraction "x" (Term.Variable "x")) = true)
    ∧ ("y" ∉ free_vars (Term.Abstraction "x" (Term.Variable "x")))
    ∧ (∀ b ∈ binders (Term.Abstraction "x" (Term.Variable "x")),
        b ∉ free_vars (Term.Variable "z"))
    ∧ substitute (Term.Abstraction "x" (Term.Variable "x")) "y" (Term.Variable "z")
        = Term.Abstraction "x" (Term.Variable "x") :=
  ⟨by decide, by decide, by decide,
    c2_substitute_fixed_point (Term.Abstraction "x" (Term.Variable "x")) "y"
      (Term.Variable "z") (by decide) (by decide) (by decide)⟩

/-- C3: the claim that the reduction step on a redex returns
`substitute(body, param, a)` itself, without reducing it further within
the same step, is refuted: on `(λx.(λy.y) x) z` the code returns `z`,
not the one-step reduct `(λy.y) z`. -/
theorem c3_counterexample :
    BetaReduces
      (Term.Application
        (Term.Abstraction "x"
          (Term.Application (Term.Abstraction "y" (Term.Variable "y"))
            (Term.Variable "x")))
        (Term.Variable "z"))
      (Term.Variable "z")
    ∧ substitute
        (Term.Application (Term.Abstraction "y" (Term.Variable "y"))
          (Term.Variable "x")) "x" (Term.Variable "z")
      = Term.Application (Term.Abstraction "y" (Term.Variable "y"))
          (Term.Variable "z")
    ∧ ¬ BetaReduces
        (Term.Application
          (Term.Abstraction "x"
            (Term.Application (Term.Abstraction "y" (Term.Variable "y"))
              (Term.Variable "x")))
          (Term.Variable "z"))
        (Term.Application (Term.Abstraction "y" (Term.Variable "y"))
          (Term.Variable "z")) := by
  have hz : betaReduceF 3
      (Term.Application
        (Term.Abstraction "x"
          (Term.Application (Term.Abstraction "y" (Term.Variable "y"))
            (Term.Variable "x")))
        (Term.Variable "z"))
      = some (Term.Variable "z") := by
    simp [betaReduceF, substitute, free_vars, rename_var, fresh_var]
  refine ⟨⟨3, hz⟩, by simp [substitute, free_vars], fun h => ?_⟩
  have heq := BetaReduces_det h ⟨3, hz⟩
  exact absurd heq (by decide)

/-- C3 (amended): on an application whose head is syntactically an
abstraction, `beta_reduce` substitutes the (unreduced) argument into the
body — so the redex fires without normalizing the argument first — and
then continues reducing the substituted result within the same call:
the call is exactly `beta_reduce(substitute(body, param, a))`. -/
theorem c3_beta_reduce_redex :
    ∀ (n : Nat) (p : String) (b a : Term), ¬ n = 0 →
      betaReduceF n (Term.Application (Term.Abstraction p b) a)
        = betaReduceF (n - 1) (substitute b p a) := by
  intro n p b a hn
  rw [betaReduceF.eq_def, dif_neg hn]

/-- C3 witness: the amended equation at a concrete redex. -/
theorem c3_witness :
    (¬ (1 : Nat) = 0)
    ∧ betaReduceF 1
        (Term.Application (Term.Abstraction "x" (Term.Variable "x"))
          (Term.Variable "y"))
      = betaReduceF 0 (substitute (Term.Variable "x") "x" (Term.Variable "y")) :=
  ⟨by decide,
    c3_beta_reduce_redex 1 "x" (Term.Variable "x") (Term.Variable "y") (by decide)⟩

/-- C4: the claim that evaluating an application whose head does not
normalize to an abstraction signals a fatal "expected a function" error is
refuted: the code has no such error path, and evaluating `x y` returns
the term `x y` itself. -/
theorem c4_counterexample :
    evalF 3 (Term.Application (Term.Variable "x") (Term.Variable "y")) []
      = some (Term.Application (Term.Variable "x") (Term.Variable "y"),
          ([] : Env)) := by
  simp [evalF, inline_vars, envLookup, normF, betaReduceF]

/-- C4 (amended): an application whose head is not an abstraction is not a
fault: `beta_reduce` reduces both sides and rewraps the application, and
evaluation of such a stuck term (here `x y` in the empty environment)
returns the term itself rather than signalling any error. -/
theorem c4_stuck_application :
    (∀ (n : Nat) (e1 e2 : Term), ¬ n = 0 → isAbstraction e1 = false →
        betaReduceF n (Term.Application e1 e2)
          = (betaReduceF (n - 1) e1).bind fun r1 =>
              (betaReduceF (n - 1) e2).map fun r2 => Term.Application r1 r2)
    ∧ evalF 3 (Term.Application (Term.Variable "x") (Term.Variable "y")) []
        = some (Term.Application (Term.Variable "x") (Term.Variable "y"),
            ([] : Env)) := by
  constructor
  · intro n e1 e2 hn h1
    rw [betaReduceF.eq_def, dif_neg hn]
    cases e1 with
    | Variable v => rfl
    | Assignment a b => rfl
    | Abstraction p b => simp [isAbstraction] at h1
    | Application f a => rfl
  · simp [evalF, inline_vars, envLookup, normF, betaReduceF]

/-- C4 witness: the amended head-not-an-abstraction equation at a concrete
input. -/
theorem c4_witness :
    (¬ (1 : Nat) = 0)
    ∧ (isAbstraction (Term.Variable "x") = false)
    ∧ betaReduceF 1 (Term.Application (Term.Variable "x") (Term.Variable "y"))
        = (betaReduceF 0 (Term.Variable "x")).bind fun r1 =>
            (betaReduceF 0 (Term.Variable "y")).map fun r2 =>
              Term.Application r1 r2 :=
  ⟨by decide, by decide,
    c4_stuck_application.1 1 (Term.Variable "x") (Term.Variable "y")
      (by decide) (by decide)⟩

/-- C8: normalization is idempotent on normalizing terms: whenever the
reduction-to-fixed-point loop terminates on `t` with result `r`, running
it on `r` terminates with `r` again (and `r` is its only possible
result). -/
theorem c8_normalize_idempotent :
    ∀ (t r : Term), Normalizes t r →
      Normalizes r r ∧ ∀ r' , Normalizes r r' → r' = r := by
  intro t r h
  obtain ⟨n, hn⟩ := h
  obtain ⟨k, hk⟩ := normF_fixpoint hn
  have hk0 : ¬ k = 0 := by
    intro h0
    subst h0
    rw [betaReduceF.eq_def] at hk
    simp at hk
  have hrr : normF k r = some r := by
    rw [normF.eq_def, dif_neg hk0, hk, Option.some_bind, if_pos rfl]
  exact ⟨⟨k, hrr⟩, fun r' h' => Normalizes_det h' ⟨k, hrr⟩⟩

/-- C8 witness: idempotence applied to the normalizing term `(λx.x) y`,
whose normal form is `y`. -/
theorem c8_witness :
    Normalizes
      (Term.Application (Term.Abstraction "x" (Term.Variable "x"))
        (Term.Variable "y"))
      (Term.Variable "y")
    ∧ Normalizes (Term.Variable "y") (Term.Variable "y") := by
  have h : normF 3
      (Term.Application (Term.Abstraction "x" (Term.Variable "x"))
        (Term.Variable "y"))
      = some (Term.Variable "y") := by
    simp [normF, betaReduceF, substitute]
  exact ⟨⟨3, h⟩,
    (c8_normalize_idempotent
      (Term.Application (Term.Abstraction "x" (Term.Variable "x"))
        (Term.Variable "y"))
      (Term.Variable "y") ⟨3, h⟩).1⟩

/-- C5: the claim that inlining leaves occurrences bound by an enclosing
abstraction untouched is refuted: inlining `λx.x` in an environment that
maps `x` replaces the bound occurrence of `x` in the body. -/
theorem c5_counterexample :
    inline_vars (Term.Abstraction "x" (Term.Variable "x"))
        [("x", Term.Variable "y")]
      = Term.Abstraction "x" (Term.Variable "y")
    ∧ Term.Abstraction "x" (Term.Variable "y")
        ≠ Term.Abstraction "x" (Term.Variable "x") := by
  exact ⟨by decide, by decide⟩

/-- C5 (amended): `inline_vars` substitutes every variable occurrence
whose name is a key of the environment — bound occurrences included: the
recursion enters an abstraction body without removing the parameter from
the environment, so the bound body occurrence of a mapped parameter is
replaced by the stored value.  (The environment itself is taken by shared
reference in the source and is never modified by inlining.) -/
theorem c5_inline_replaces_bound :
    (∀ (p : String) (b : Term) (env : Env),
        inline_vars (Term.Abstraction p b) env
          = Term.Abstraction p (inline_vars b env))
    ∧ (∀ (env : Env) (p : String) (w : Term),
        envLookup env p = some w →
        inline_vars (Term.Abstraction p (Term.Variable p)) env
          = Term.Abstraction p w) := by
  constructor
  · intro p b env
    rfl
  · intro env p w h
    simp [inline_vars, h]

/-- C5 witness: the bound occurrence of `x` in `λx.x` is replaced by the
stored value `y`. -/
theorem c5_witness :
    (envLookup [("x", Term.Variable "y")] "x" = some (Term.Variable "y"))
    ∧ inline_vars (Term.Abstraction "x" (Term.Variable "x"))
        [("x", Term.Variable "y")]
      = Term.Abstraction "x" (Term.Variable "y") :=
  ⟨by decide,
    c5_inline_replaces_bound.2 [("x", Term.Variable "y")] "x"
      (Term.Variable "y") (by decide)⟩

/-- C6: evaluating `Assignment(name, value)` first inlines against the
environment, normalizes the inlined value, stores the normalized result
under `name` (a lookup of `name` afterwards yields exactly it, whatever
was bound before), and returns it; and the binding persists to later
evaluations in the same session: after `id = λx.x;` the term `id w`
evaluates to `w` in the updated environment. -/
theorem c6_assignment_eval :
    (∀ (n : Nat) (name : String) (v : Term) (env : Env) (r : Term),
        normF n (inline_vars v env) = some r →
        evalF n (Term.Assignment name v) env = some (r, envInsert name r env)
        ∧ envLookup (envInsert name r env) name = some r)
    ∧ (evalF 3 (Term.Assignment "id" (Term.Abstraction "x" (Term.Variable "x"))) []
        = some (Term.Abstraction "x" (Term.Variable "x"),
            envInsert "id" (Term.Abstraction "x" (Term.Variable "x")) [])
      ∧ evalF 3 (Term.Application (Term.Variable "id") (Term.Variable "w"))
          (envInsert "id" (Term.Abstraction "x" (Term.Variable "x")) [])
        = some (Term.Variable "w",
            envInsert "id" (Term.Abstraction "x" (Term.Variable "x")) [])) := by
  refine ⟨fun n name v env r h => ⟨?_, envLookup_insert_self name r env⟩, ?_, ?_⟩
  · simp [evalF, inline_vars, h]
  · simp [evalF, inline_vars, envLookup, envInsert, envRemove, normF, betaReduceF]
  · simp [evalF, inline_vars, envLookup, envInsert, envRemove, normF,
      betaReduceF, substitute]

/-- C6 witness: the general assignment equation applied at the concrete
assignment `a = b;` in the empty environment. -/
theorem c6_witness :
    (normF 2 (inline_vars (Term.Variable "b") []) = some (Term.Variable "b"))
    ∧ evalF 2 (Term.Assignment "a" (Term.Variable "b")) []
        = some (Term.Variable "b", envInsert "a" (Term.Variable "b") [])
    ∧ envLookup (envInsert "a" (Term.Variable "b") []) "a"
        = some (Term.Variable "b") := by
  have h : normF 2 (inline_vars (Term.Variable "b") ([] : Env))
      = some (Term.Variable "b") := by
    simp [inline_vars, envLookup, normF, betaReduceF]
  exact ⟨h,
    (c6_assignment_eval.1 2 "a" (Term.Variable "b") [] (Term.Variable "b") h).1,
    (c6_assignment_eval.1 2 "a" (Term.Variable "b") [] (Term.Variable "b") h).2⟩

/-- C7: sequence evaluation: for every non-empty batch `ts ++ [t]`, the
batch evaluates every term in order, threading the environment mutations
of earlier terms into later ones, and the overall result is exactly the
evaluation of the last term `t` in the environment produced by the
earlier ones. -/
theorem c7_sequence_eval :
    ∀ (n : Nat) (ts : List Term) (t : Term) (env : Env),
      runTermsF n (ts ++ [t]) env
        = (threadEnvF n ts env).bind fun env' => evalF n t env' := by
  intro n ts
  induction ts with
  | nil =>
      intro t env
      simp [runTermsF, threadEnvF]
  | cons t1 rest ih =>
      intro t env
      cases hrt : rest ++ [t] with
      | nil => exact absurd hrt (by simp)
      | cons hd tl =>
          rw [List.cons_append, hrt]
          have hrun : runTermsF n (t1 :: hd :: tl) env
              = (evalF n t1 env).bind fun p => runTermsF n (hd :: tl) p.2 := by
            simp [runTermsF]
          have hth : threadEnvF n (t1 :: rest) env
              = (evalF n t1 env).bind fun p => threadEnvF n rest p.2 := by
            simp [threadEnvF]
          rw [hrun, hth]
          cases he : evalF n t1 env with
          | none => simp
          | some p =>
              simp only [Option.some_bind]
              rw [← hrt]
              exact ih t p.2

/-- C9: the pretty-printer follows the canonical rendering rules: with
the ANSI color codes (which the specification scopes out as terminal
plumbing) stripped, `print_term` produces exactly the specified rendering
— bare names for variables, `λp.body` with the body parenthesized exactly
when it is an application, `lhs rhs` with non-variable sides
parenthesized, and one extra pair of parentheses only at the outermost
call — for every term whose names are free of the escape character. -/
theorem c9_pretty_print_spec :
    ∀ (t : Term), namesOk t = true →
      stripEsc (pretty_print t) = specRender t true
      ∧ ∀ (top : Bool), stripEsc (print_term t top) = specRender t top := by
  have hmk : ∀ s : String, String.mk s.data = s := by
    intro s
    cases s
    rfl
  have main : ∀ (t : Term), namesOk t = true → ∀ (top : Bool),
      stripEsc (print_term t top) = specRender t top := by
    intro t h top
    have haux := strip_print_aux t h top []
    rw [List.append_nil] at haux
    rw [show stripEscL [] = [] from by simp [stripEscL], List.append_nil] at haux
    rw [stripEsc, haux, hmk]
  exact fun t h => ⟨main t h true, main t h⟩

/-- C9 witness: the rendering equation at the concrete top-level
application `(λx.x) y`, whose specified rendering is `((λx.x) y)`. -/
theorem c9_witness :
    (namesOk (Term.Application (Term.Abstraction "x" (Term.Variable "x"))
        (Term.Variable "y")) = true)
    ∧ stripEsc (pretty_print (Term.Application
        (Term.Abstraction "x" (Term.Variable "x")) (Term.Variable "y")))
      = specRender (Term.Application (Term.Abstraction "x" (Term.Variable "x"))
          (Term.Variable "y")) true :=
  ⟨by decide,
    (c9_pretty_print_spec
      (Term.Application (Term.Abstraction "x" (Term.Variable "x"))
        (Term.Variable "y")) (by decide)).1⟩

/-- C10: evaluating a term that does not inline to an assignment never
changes the environment: whenever `eval` returns on such a term, the
environment it leaves behind is exactly the one it was given (the only
write to the environment in the source is the `env.insert` in the
assignment branch). -/
theorem c10_non_assignment_preserves_env :
    ∀ (n : Nat) (t : Term) (env : Env) (r : Term) (env' : Env),
      isAssignment (inline_vars t env) = false →
      evalF n t env = some (r, env') →
      env' = env := by
  intro n t env r env' hna he
  cases hi : inline_vars t env with
  | Assignment name val =>
      rw [hi] at hna
      simp [isAssignment] at hna
  | Variable v =>
      rw [evalF.eq_def, hi] at he
      simp only [Option.map_eq_some'] at he
      obtain ⟨a, _, hp⟩ := he
      injection hp with h1 h2
      exact h2.symm
  | Abstraction p b =>
      rw [evalF.eq_def, hi] at he
      simp only [Option.map_eq_some'] at he
      obtain ⟨a, _, hp⟩ := he
      injection hp with h1 h2
      exact h2.symm
  | Application f a =>
      rw [evalF.eq_def, hi] at he
      simp only [Option.map_eq_some'] at he
      obtain ⟨a, _, hp⟩ := he
      injection hp with h1 h2
      exact h2.symm

/-- C10 witness: evaluating the non-assignment `a` (which inlines to
`λx.x`) in a one-binding environment returns that environment
unchanged. -/
theorem c10_witness :
    (isAssignment (inline_vars (Term.Variable "a")
        [("a", Term.Abstraction "x" (Term.Variable "x"))]) = false)
    ∧ (evalF 2 (Term.Variable "a")
        [("a", Term.Abstraction "x" (Term.Variable "x"))]
      = some (Term.Abstraction "x" (Term.Variable "x"),
          [("a", Term.Abstraction "x" (Term.Variable "x"))]))
    ∧ ([("a", Term.Abstraction "x" (Term.Variable "x"))] : Env)
        = [("a", Term.Abstraction "x" (Term.Variable "x"))] := by
  have h1 : isAssignment (inline_vars (Term.Variable "a")
      [("a", Term.Abstraction "x" (Term.Variable "x"))]) = false := by
    decide
  have h2 : evalF 2 (Term.Variable "a")
      [("a", Term.Abstraction "x" (Term.Variable "x"))]
      = some (Term.Abstraction "x" (Term.Variable "x"),
          [("a", Term.Abstraction "x" (Term.Variable "x"))]) := by
    simp [evalF, inline_vars, envLookup, normF, betaReduceF]
  exact ⟨h1, h2,
    c10_non_assignment_preserves_env 2 (Term.Variable "a")
      [("a", Term.Abstraction "x" (Term.Variable "x"))]
      (Term.Abstraction "x" (Term.Variable "x"))
      [("a", Term.Abstraction "x" (Term.Variable "x"))] h1 h2⟩
